import Mathlib

/-!
Verification of `knapsack-dfs.py` (BartMassey/knapsack): a 0/1 knapsack
solver with a brute-force powerset enumerator (`ks_brute_force`) and a
value-density ordered depth-first search (`ks_dfs`) with two optional
branch-and-bound heuristics (`HEURISTIC_FAST`, `HEURISTIC_ACCURATE`).

Embedding conventions:
* Python ints are `Nat` (capacities, weights and values are non-negative;
  the instance invariant makes weights/values strictly positive).
* Python sets of item indices are `Finset Nat`.
* The mutable `(max_t, max_val)` pair threaded through the search by
  `nonlocal` mutation is passed and returned explicitly.
* `exit("unknown heuristic")` is `Except.error "unknown heuristic"`.
* The float density `v[i]/w[i]` is modelled exactly: comparisons between
  densities are cross-multiplied integer comparisons, and the `ceil` of a
  density product is the exact ceiling of the rational quantity.
* `powerset` mutates its argument (`l.pop(0)`); its loop is embedded with
  the state of the argument list passed and returned explicitly.
-/

/-- A knapsack problem instance: capacity `c`, item count `n`, per-item
weight list `w` and value list `v` (the random constructor draws each
attribute from `1..maxv`; any instance with positive attributes is valid). -/
structure Knapsack where
  c : Nat
  n : Nat
  w : List Nat
  v : List Nat

/-- Read access `ks.w[i]` of the Python attribute list. -/
def Knapsack.weight (ks : Knapsack) (i : Nat) : Nat := ks.w.getD i 0

/-- Read access `ks.v[i]` of the Python attribute list. -/
def Knapsack.value (ks : Knapsack) (i : Nat) : Nat := ks.v.getD i 0

/-- Instance invariant established by `Knapsack.__init__`: attribute lists
have length `n`, and every weight and value is strictly positive
(`randrange(1, maxv + 1)` draws from `1..maxv`). -/
def Knapsack.WF (ks : Knapsack) : Prop :=
  ks.w.length = ks.n ∧ ks.v.length = ks.n ∧
    (∀ x ∈ ks.w, 0 < x) ∧ (∀ x ∈ ks.v, 0 < x)

instance (ks : Knapsack) : Decidable ks.WF := by
  unfold Knapsack.WF; infer_instance

/-- `fsum(a, t)`: sum of the attribute list `a` at the indices drawn from
the set `t` (the Python loop `for e in t: result += a[e]`). -/
def fsum (a : List Nat) (t : Finset Nat) : Nat := t.sum fun e => a.getD e 0

/-- The loop body of `powerset`: `l` is popped from the front one element
at a time, and each element doubles `result` by appending the copies with
the element inserted. The pair returned is `(result, final state of l)`;
the source mutates `l` in place, which is modelled by returning the list's
final state explicitly. -/
def powersetLoop : List Nat → List (Finset Nat) → List (Finset Nat) × List Nat
  | [], result => (result, [])
  | e :: l, result => powersetLoop l (result ++ result.map fun s => insert e s)

/-- `powerset(l)`: the list of all sets of elements drawn from `l`,
starting from `[set()]`. -/
def powerset (l : List Nat) : List (Finset Nat) := (powersetLoop l [∅]).1

/-- `ks_brute_force(ks)`: fold the update of `(max_t, max_val)` over every
subset produced by `powerset(list(range(ks.n)))`: skip a subset whose
weight sum exceeds capacity, otherwise take it when its value sum strictly
improves the current best. -/
def ks_brute_force (ks : Knapsack) : Finset Nat × Nat :=
  (powerset (List.range ks.n)).foldl
    (fun mx t =>
      if fsum ks.w t > ks.c then mx
      else if fsum ks.v t > mx.2 then (t, fsum ks.v t) else mx)
    (∅, 0)

/-- Heuristic selector constant `HEURISTIC_FAST = 1`. -/
def HEURISTIC_FAST : Nat := 1

/-- Heuristic selector constant `HEURISTIC_ACCURATE = 2`. -/
def HEURISTIC_ACCURATE : Nat := 2

/-- Python truthiness of the `bb` argument (`None` and `0` are falsy). -/
def pyTruthy : Option Nat → Bool
  | none => false
  | some k => k != 0

/-- Exact ceiling division on naturals: `ceilDiv a b = ⌈a / b⌉` for
`b > 0`. This embeds the source's `ceil(x * v/w)` where `v/w` is a float
density: the exact rational value is ceiled. -/
def ceilDiv (a b : Nat) : Nat := (a + b - 1) / b

/-- The comparison "density of `a` is at least density of `b`"
(`v[a]/w[a] >= v[b]/w[b]`), written exactly with cross multiplication.
`sorted(..., key=density, reverse=True)` orders by descending density. -/
def densGE (ks : Knapsack) (a b : Nat) : Prop :=
  ks.value b * ks.weight a ≤ ks.value a * ks.weight b

instance (ks : Knapsack) : DecidableRel (densGE ks) := fun _ _ => by
  unfold densGE; infer_instance

/-- `S`: the item indices sorted in order of decreasing value density,
`[i for i, _, _ in sorted(ks.items(), key=density, reverse=True)]`
(sorting the `(i, w[i], v[i])` triples by density and projecting the index
is sorting the indices by the density at that index). -/
def densityOrder (ks : Knapsack) : List Nat :=
  List.insertionSort (densGE ks) (List.range ks.n)

/-- The fast `O(1)` heuristic upper bound at a node with next item `j` and
accumulated weight `weight`: assume the remaining capacity can be filled
at the density of `j`, `ceil(rem_weight * v[j]/w[j])`. -/
def fastBound (ks : Knapsack) (j : Nat) (weight : Nat) : Nat :=
  ceilDiv ((ks.c - weight) * ks.value j) (ks.weight j)

/-- The accurate `O(n)` heuristic upper bound: walk the remaining items in
density order, adding whole items while they fit; the first item that
would overflow contributes the ceiled fractional fill of the remaining
capacity, and the loop breaks. -/
def accurateBound (ks : Knapsack) : List Nat → Nat → Nat
  | [], _ => 0
  | m :: rest, acc_weight =>
    if ks.weight m + acc_weight > ks.c then
      ceilDiv ((ks.c - acc_weight) * ks.value m) (ks.weight m)
    else ks.value m + accurateBound ks rest (acc_weight + ks.weight m)

/-- `ks_dfs_step(i, T, val, weight)` with the remaining density-ordered
suffix `S[i..n-1]` passed as the list `rest`, and the `nonlocal`
`(max_t, max_val)` passed in as `st` and returned. Order of operations as
in the source: update the best pair, stop at a leaf, otherwise compute the
branch-and-bound decision for the selected heuristic (an unknown truthy
selector exits fatally), prune or recurse on the include branch (only when
the new weight respects capacity) and then the exclude branch. -/
def ks_dfs_step (ks : Knapsack) (bb : Option Nat) :
    List Nat → Finset Nat → Nat → Nat → Finset Nat × Nat →
      Except String (Finset Nat × Nat)
  | [], T, val, _, st => Except.ok (if val > st.2 then (T, val) else st)
  | j :: rest2, T, val, weight, st =>
    let st1 := if val > st.2 then (T, val) else st
    let pruneDec : Except String Bool :=
      if pyTruthy bb then
        if bb = some HEURISTIC_FAST then
          Except.ok (decide (val + fastBound ks j weight ≤ st1.2))
        else if bb = some HEURISTIC_ACCURATE then
          Except.ok (decide (val + accurateBound ks (j :: rest2) weight ≤ st1.2))
        else Except.error "unknown heuristic"
      else Except.ok false
    match pruneDec with
    | Except.error e => Except.error e
    | Except.ok true => Except.ok st1
    | Except.ok false =>
      let new_weight := weight + ks.weight j
      if new_weight ≤ ks.c then
        match ks_dfs_step ks bb rest2 (insert j T) (val + ks.value j) new_weight st1 with
        | Except.error e => Except.error e
        | Except.ok st2 => ks_dfs_step ks bb rest2 T val weight st2
      else ks_dfs_step ks bb rest2 T val weight st1

/-- `ks_dfs(ks, bb)`: run the ordered depth-first search from the root
node `(0, set(), 0, 0)` with the best pair initialized to `(set(), 0)`,
and return the final best pair (the recursion-limit adjustment in the
source only provisions interpreter stack and computes nothing). -/
def ks_dfs (ks : Knapsack) (bb : Option Nat) : Except String (Finset Nat × Nat) :=
  ks_dfs_step ks bb (densityOrder ks) ∅ 0 0 (∅, 0)

/-- The valid heuristic selectors: `None`, `HEURISTIC_FAST`,
`HEURISTIC_ACCURATE` (the three configurations exercised by the harness). -/
def validBB (bb : Option Nat) : Prop :=
  bb = none ∨ bb = some HEURISTIC_FAST ∨ bb = some HEURISTIC_ACCURATE

instance (bb : Option Nat) : Decidable (validBB bb) := by
  unfold validBB; infer_instance

/-- State-passing form of a `ks_brute_force` call: the solver body contains
no assignment to the fields of its argument (`ks.c`, `ks.n`, `ks.w`,
`ks.v` occur only as reads, and the list consumed by `powerset` is freshly
built from `range`), so the instance after the call is the input instance. -/
def ks_brute_force_call (ks : Knapsack) : (Finset Nat × Nat) × Knapsack :=
  (ks_brute_force ks, ks)

/-- State-passing form of a `ks_dfs` call: the solver body contains no
assignment to the fields of its argument (only reads of `ks.c`, `ks.n`,
`ks.w`, `ks.v`, and mutation of the solver-local `max_t`/`max_val` and the
interpreter recursion limit), so the instance after the call is the input
instance. -/
def ks_dfs_call (ks : Knapsack) (bb : Option Nat) :
    Except String (Finset Nat × Nat) × Knapsack :=
  (ks_dfs ks bb, ks)

instance : DecidableEq (Except String (Finset Nat × Nat)) := fun a b =>
  match a, b with
  | .ok x, .ok y => decidable_of_iff (x = y) (by simp)
  | .error x, .error y => decidable_of_iff (x = y) (by simp)
  | .ok _, .error _ => isFalse (by simp)
  | .error _, .ok _ => isFalse (by simp)

/-! ### Lemmas about `fsum` -/

theorem fsum_empty (a : List Nat) : fsum a ∅ = 0 := rfl

theorem fsum_insert (a : List Nat) {j : Nat} {t : Finset Nat} (hj : j ∉ t) :
    fsum a (insert j t) = a.getD j 0 + fsum a t :=
  Finset.sum_insert hj

theorem fsum_erase_of_mem (a : List Nat) {j : Nat} {t : Finset Nat} (hj : j ∈ t) :
    fsum a t = a.getD j 0 + fsum a (t.erase j) :=
  (Finset.add_sum_erase t _ hj).symm

theorem fsum_pos (a : List Nat) {t : Finset Nat} (ht : t.Nonempty)
    (h : ∀ x ∈ t, 0 < a.getD x 0) : 0 < fsum a t :=
  Finset.sum_pos h ht

/-! ### Lemmas about `powerset` -/

theorem powersetLoop_snd (l : List Nat) :
    ∀ acc, (powersetLoop l acc).2 = [] := by
  induction l with
  | nil => intro acc; rfl
  | cons e l ih => intro acc; exact ih _

theorem powersetLoop_length (l : List Nat) :
    ∀ acc, (powersetLoop l acc).1.length = acc.length * 2 ^ l.length := by
  induction l with
  | nil => intro acc; simp [powersetLoop]
  | cons e l ih =>
    intro acc
    rw [powersetLoop, ih]
    simp [List.length_append]
    ring

theorem powersetLoop_sound (l : List Nat) :
    ∀ acc s, s ∈ (powersetLoop l acc).1 →
      ∃ s₀ ∈ acc, ∀ x ∈ s, x ∈ s₀ ∨ x ∈ l := by
  induction l with
  | nil =>
    intro acc s hs
    exact ⟨s, hs, fun x hx => Or.inl hx⟩
  | cons e l ih =>
    intro acc s hs
    obtain ⟨s₀, hs₀, hsub⟩ := ih _ s hs
    rcases List.mem_append.mp hs₀ with h | h
    · exact ⟨s₀, h, fun x hx => (hsub x hx).imp_right (List.mem_cons_of_mem e)⟩
    · obtain ⟨s₁, hs₁, rfl⟩ := List.mem_map.mp h
      refine ⟨s₁, hs₁, fun x hx => ?_⟩
      rcases hsub x hx with h' | h'
      · rcases Finset.mem_insert.mp h' with rfl | h''
        · exact Or.inr (List.mem_cons_self _ _)
        · exact Or.inl h''
      · exact Or.inr (List.mem_cons_of_mem e h')

theorem powersetLoop_complete (l : List Nat) :
    ∀ acc (s₀ u : Finset Nat), s₀ ∈ acc → (∀ x ∈ u, x ∈ l) →
      s₀ ∪ u ∈ (powersetLoop l acc).1 := by
  induction l with
  | nil =>
    intro acc s₀ u h0 hu
    have : u = ∅ := Finset.eq_empty_of_forall_not_mem fun x hx =>
      (List.not_mem_nil x) (hu x hx)
    simpa [powersetLoop, this] using h0
  | cons e l ih =>
    intro acc s₀ u h0 hu
    rw [powersetLoop]
    by_cases he : e ∈ u
    · have hsub : ∀ x ∈ u.erase e, x ∈ l := by
        intro x hx
        have hxu := Finset.mem_of_mem_erase hx
        have hxe := Finset.ne_of_mem_erase hx
        rcases List.mem_cons.mp (hu x hxu) with rfl | h
        · exact absurd rfl hxe
        · exact h
      have hmem : insert e s₀ ∈ acc ++ acc.map fun s => insert e s :=
        List.mem_append.mpr (Or.inr (List.mem_map.mpr ⟨s₀, h0, rfl⟩))
      have hkey := ih _ (insert e s₀) (u.erase e) hmem hsub
      have : insert e s₀ ∪ u.erase e = s₀ ∪ u := by
        ext x
        simp only [Finset.mem_union, Finset.mem_insert, Finset.mem_erase]
        constructor
        · rintro (⟨rfl | h⟩ | ⟨_, h⟩)
          · exact Or.inr he
          · exact Or.inl h
          · exact Or.inr h
        · rintro (h | h)
          · exact Or.inl (Or.inr h)
          · by_cases hx : x = e
            · exact Or.inl (Or.inl hx)
            · exact Or.inr ⟨hx, h⟩
      rwa [this] at hkey
    · have hsub : ∀ x ∈ u, x ∈ l := by
        intro x hx
        rcases List.mem_cons.mp (hu x hx) with rfl | h
        · exact absurd hx he
        · exact h
      exact ih _ s₀ u (List.mem_append.mpr (Or.inl h0)) hsub

theorem mem_powerset_sound {l : List Nat} {s : Finset Nat}
    (hs : s ∈ powerset l) : ∀ x ∈ s, x ∈ l := by
  obtain ⟨s₀, hs₀, hsub⟩ := powersetLoop_sound l [∅] s hs
  intro x hx
  rcases hsub x hx with h | h
  · rw [List.mem_singleton.mp hs₀] at h
    exact absurd h (Finset.not_mem_empty x)
  · exact h

theorem mem_powerset_complete {l : List Nat} {u : Finset Nat}
    (hu : ∀ x ∈ u, x ∈ l) : u ∈ powerset l := by
  have h := powersetLoop_complete l [∅] ∅ u (List.mem_singleton_self _) hu
  rwa [Finset.empty_union] at h

theorem powerset_length (l : List Nat) : (powerset l).length = 2 ^ l.length := by
  have h := powersetLoop_length l [∅]
  simpa [powerset] using h

/-! ### The brute-force enumerator -/

/-- The loop body of `ks_brute_force`. -/
def bfStep (ks : Knapsack) (mx : Finset Nat × Nat) (t : Finset Nat) :
    Finset Nat × Nat :=
  if fsum ks.w t > ks.c then mx
  else if fsum ks.v t > mx.2 then (t, fsum ks.v t) else mx

theorem ks_brute_force_eq_foldl (ks : Knapsack) :
    ks_brute_force ks = (powerset (List.range ks.n)).foldl (bfStep ks) (∅, 0) :=
  rfl

theorem bfStep_spec (ks : Knapsack) (mx : Finset Nat × Nat) (t : Finset Nat)
    (h1 : mx.2 = fsum ks.v mx.1) (h2 : fsum ks.w mx.1 ≤ ks.c)
    (h3 : ∀ j ∈ mx.1, j < ks.n) (ht : ∀ j ∈ t, j < ks.n) :
    (bfStep ks mx t).2 = fsum ks.v (bfStep ks mx t).1 ∧
      fsum ks.w (bfStep ks mx t).1 ≤ ks.c ∧
      (∀ j ∈ (bfStep ks mx t).1, j < ks.n) ∧
      mx.2 ≤ (bfStep ks mx t).2 ∧
      (fsum ks.w t ≤ ks.c → fsum ks.v t ≤ (bfStep ks mx t).2) := by
  unfold bfStep
  by_cases hw : fsum ks.w t > ks.c
  · rw [if_pos hw]
    exact ⟨h1, h2, h3, le_refl _, fun h => absurd h (not_le.mpr hw)⟩
  · rw [if_neg hw]
    by_cases hv : fsum ks.v t > mx.2
    · rw [if_pos hv]
      exact ⟨rfl, not_lt.mp hw, ht, le_of_lt hv, fun _ => le_refl _⟩
    · rw [if_neg hv]
      exact ⟨h1, h2, h3, le_refl _, fun _ => not_lt.mp hv⟩

theorem bf_foldl_spec (ks : Knapsack) :
    ∀ (L : List (Finset Nat)) (b : Finset Nat × Nat),
      (∀ t ∈ L, ∀ j ∈ t, j < ks.n) →
      b.2 = fsum ks.v b.1 → fsum ks.w b.1 ≤ ks.c → (∀ j ∈ b.1, j < ks.n) →
      (L.foldl (bfStep ks) b).2 = fsum ks.v (L.foldl (bfStep ks) b).1 ∧
        fsum ks.w (L.foldl (bfStep ks) b).1 ≤ ks.c ∧
        (∀ j ∈ (L.foldl (bfStep ks) b).1, j < ks.n) ∧
        b.2 ≤ (L.foldl (bfStep ks) b).2 ∧
        ∀ t ∈ L, fsum ks.w t ≤ ks.c → fsum ks.v t ≤ (L.foldl (bfStep ks) b).2 := by
  intro L
  induction L with
  | nil =>
    intro b _ h1 h2 h3
    exact ⟨h1, h2, h3, le_refl _, by simp⟩
  | cons t L ih =>
    intro b hL h1 h2 h3
    have ht : ∀ j ∈ t, j < ks.n := hL t (List.mem_cons_self _ _)
    obtain ⟨s1, s2, s3, s4, s5⟩ := bfStep_spec ks b t h1 h2 h3 ht
    have hL' : ∀ t' ∈ L, ∀ j ∈ t', j < ks.n := fun t' h => hL t' (List.mem_cons_of_mem _ h)
    obtain ⟨r1, r2, r3, r4, r5⟩ := ih (bfStep ks b t) hL' s1 s2 s3
    refine ⟨by simpa using r1, by simpa using r2, by simpa using r3,
      le_trans s4 (by simpa using r4), ?_⟩
    intro t' ht' hfeas
    rcases List.mem_cons.mp ht' with rfl | h
    · exact le_trans (s5 hfeas) (by simpa using r4)
    · exact r5 t' h hfeas

/-- Full functional specification of `ks_brute_force`: the returned value
is the value sum of the returned set, the returned set is feasible and
drawn from `0..n-1`, and no feasible subset of `0..n-1` has a strictly
greater value sum. -/
theorem ks_brute_force_spec (ks : Knapsack) :
    (ks_brute_force ks).2 = fsum ks.v (ks_brute_force ks).1 ∧
      fsum ks.w (ks_brute_force ks).1 ≤ ks.c ∧
      (∀ j ∈ (ks_brute_force ks).1, j < ks.n) ∧
      ∀ t : Finset Nat, (∀ j ∈ t, j < ks.n) → fsum ks.w t ≤ ks.c →
        fsum ks.v t ≤ (ks_brute_force ks).2 := by
  have hL : ∀ t ∈ powerset (List.range ks.n), ∀ j ∈ t, j < ks.n := by
    intro t ht j hj
    exact List.mem_range.mp (mem_powerset_sound ht j hj)
  rw [ks_brute_force_eq_foldl]
  obtain ⟨r1, r2, r3, _, r5⟩ := bf_foldl_spec ks (powerset (List.range ks.n)) (∅, 0)
    hL (by simp [fsum_empty]) (by simp [fsum_empty]) (by simp)
  refine ⟨r1, r2, r3, ?_⟩
  intro t ht hfeas
  exact r5 t (mem_powerset_complete fun x hx => List.mem_range.mpr (ht x hx)) hfeas

/-! ### The density order -/

/-- The exact value density `v[i]/w[i]` of item `i` (the source computes it
in floating point; the embedding uses the exact rational). -/
def ratDensity (ks : Knapsack) (i : Nat) : ℚ :=
  (ks.value i : ℚ) / (ks.weight i : ℚ)

theorem ratDensity_nonneg (ks : Knapsack) (i : Nat) : 0 ≤ ratDensity ks i :=
  div_nonneg (Nat.cast_nonneg _) (Nat.cast_nonneg _)

theorem value_eq_weight_mul_density (ks : Knapsack) {i : Nat}
    (hw : 0 < ks.weight i) :
    (ks.value i : ℚ) = (ks.weight i : ℚ) * ratDensity ks i := by
  have hw' : (ks.weight i : ℚ) ≠ 0 := by positivity
  field_simp [ratDensity]

theorem ratDensity_le_of_densGE {ks : Knapsack} {a b : Nat}
    (ha : 0 < ks.weight a) (hb : 0 < ks.weight b) (h : densGE ks a b) :
    ratDensity ks b ≤ ratDensity ks a := by
  have ha' : (0 : ℚ) < ks.weight a := by exact_mod_cast ha
  have hb' : (0 : ℚ) < ks.weight b := by exact_mod_cast hb
  rw [ratDensity, ratDensity, div_le_div_iff hb' ha']
  exact_mod_cast h

theorem densGE_total (ks : Knapsack) (a b : Nat) :
    densGE ks a b ∨ densGE ks b a :=
  le_total _ _

theorem densGE_trans_of_pos {ks : Knapsack} {a b c : Nat}
    (ha : 0 < ks.weight a) (hb : 0 < ks.weight b) (hc : 0 < ks.weight c)
    (hab : densGE ks a b) (hbc : densGE ks b c) : densGE ks a c := by
  unfold densGE at *
  have h1 : ks.value b * ks.weight a * ks.weight c ≤
      ks.value a * ks.weight b * ks.weight c :=
    Nat.mul_le_mul_right _ hab
  have h2 : ks.value c * ks.weight b * ks.weight a ≤
      ks.value b * ks.weight c * ks.weight a :=
    Nat.mul_le_mul_right _ hbc
  have h3 : ks.value c * ks.weight a * ks.weight b ≤
      ks.value a * ks.weight c * ks.weight b := by
    calc ks.value c * ks.weight a * ks.weight b
        = ks.value c * ks.weight b * ks.weight a := by ring
      _ ≤ ks.value b * ks.weight c * ks.weight a := h2
      _ = ks.value b * ks.weight a * ks.weight c := by ring
      _ ≤ ks.value a * ks.weight b * ks.weight c := h1
      _ = ks.value a * ks.weight c * ks.weight b := by ring
  exact Nat.le_of_mul_le_mul_right h3 hb

theorem pairwise_orderedInsert (r : Nat → Nat → Prop) [DecidableRel r]
    (P : Nat → Prop) (htot : ∀ a b, r a b ∨ r b a)
    (htrans : ∀ a b c, P a → P b → P c → r a b → r b c → r a c) :
    ∀ (l : List Nat) (a : Nat), P a → (∀ x ∈ l, P x) → l.Pairwise r →
      (List.orderedInsert r a l).Pairwise r := by
  intro l
  induction l with
  | nil => intro a _ _ _; simp
  | cons b l ih =>
    intro a hPa hPl hpair
    rw [List.orderedInsert]
    obtain ⟨hb, hl⟩ := List.pairwise_cons.mp hpair
    by_cases hab : r a b
    · rw [if_pos hab]
      refine List.pairwise_cons.mpr ⟨?_, hpair⟩
      intro x hx
      rcases List.mem_cons.mp hx with rfl | hx'
      · exact hab
      · exact htrans a b x hPa (hPl b (List.mem_cons_self _ _))
          (hPl x (List.mem_cons_of_mem _ hx')) hab (hb x hx')
    · rw [if_neg hab]
      refine List.pairwise_cons.mpr ⟨?_, ?_⟩
      · intro x hx
        rcases (List.mem_orderedInsert r).mp hx with rfl | hx'
        · exact (htot x b).resolve_left hab
        · exact hb x hx'
      · exact ih a hPa (fun x hx => hPl x (List.mem_cons_of_mem _ hx)) hl

theorem pairwise_insertionSort (r : Nat → Nat → Prop) [DecidableRel r]
    (P : Nat → Prop) (htot : ∀ a b, r a b ∨ r b a)
    (htrans : ∀ a b c, P a → P b → P c → r a b → r b c → r a c) :
    ∀ l : List Nat, (∀ x ∈ l, P x) → (List.insertionSort r l).Pairwise r := by
  intro l
  induction l with
  | nil => intro _; simp
  | cons a l ih =>
    intro hPl
    rw [List.insertionSort]
    refine pairwise_orderedInsert r P htot htrans _ a
      (hPl a (List.mem_cons_self _ _)) ?_
      (ih fun x hx => hPl x (List.mem_cons_of_mem _ hx))
    intro x hx
    exact hPl x (List.mem_cons_of_mem _ ((List.mem_insertionSort r).mp hx))

theorem densityOrder_perm (ks : Knapsack) :
    (densityOrder ks).Perm (List.range ks.n) :=
  List.perm_insertionSort _ _

theorem mem_densityOrder {ks : Knapsack} {j : Nat} :
    j ∈ densityOrder ks ↔ j < ks.n := by
  rw [(densityOrder_perm ks).mem_iff, List.mem_range]

theorem densityOrder_nodup (ks : Knapsack) : (densityOrder ks).Nodup :=
  (densityOrder_perm ks).nodup_iff.mpr (List.nodup_range ks.n)

theorem densityOrder_length (ks : Knapsack) :
    (densityOrder ks).length = ks.n :=
  (densityOrder_perm ks).length_eq.trans (List.length_range ks.n)

theorem densityOrder_sorted (ks : Knapsack)
    (hw : ∀ j, j < ks.n → 0 < ks.weight j) :
    (densityOrder ks).Pairwise (densGE ks) := by
  refine pairwise_insertionSort (densGE ks) (fun x => 0 < ks.weight x)
    (densGE_total ks)
    (fun a b c ha hb hc => densGE_trans_of_pos ha hb hc) _ ?_
  intro x hx
  exact hw x (List.mem_range.mp hx)

/-! ### Ceiling division against exact ratios -/

theorem ratio_le_ceilDiv {b : Nat} (a : Nat) (hb : 0 < b) :
    (a : ℚ) / (b : ℚ) ≤ (ceilDiv a b : ℚ) := by
  have hb' : (0 : ℚ) < (b : ℚ) := by exact_mod_cast hb
  rw [div_le_iff hb']
  have key : a ≤ b * ceilDiv a b := by
    unfold ceilDiv
    have h := Nat.div_add_mod (a + b - 1) b
    have hr := Nat.mod_lt (a + b - 1) hb
    omega
  calc (a : ℚ) ≤ ((b * ceilDiv a b : Nat) : ℚ) := by exact_mod_cast key
    _ = (ceilDiv a b : ℚ) * b := by push_cast; ring

theorem le_ceilDiv_of_ratio {k a b : Nat} (hb : 0 < b)
    (h : (k : ℚ) ≤ (a : ℚ) / (b : ℚ)) : k ≤ ceilDiv a b := by
  have hb' : (0 : ℚ) < (b : ℚ) := by exact_mod_cast hb
  rw [le_div_iff hb'] at h
  have hkb : k * b ≤ a := by exact_mod_cast h
  unfold ceilDiv
  rw [Nat.le_div_iff_mul_le hb]
  omega

theorem ceilDiv_le_of_ratio {k a b : Nat} (hb : 0 < b)
    (h : (a : ℚ) / (b : ℚ) ≤ (k : ℚ)) : ceilDiv a b ≤ k := by
  have hb' : (0 : ℚ) < (b : ℚ) := by exact_mod_cast hb
  rw [div_le_iff hb'] at h
  have hak : a ≤ k * b := by exact_mod_cast h
  unfold ceilDiv
  have hlt : a + b - 1 < b * (k + 1) := by
    have : k * b + b = b * (k + 1) := by ring
    omega
  exact Nat.le_of_lt_succ (Nat.div_lt_of_lt_mul hlt)

theorem getD_weight (ks : Knapsack) (x : Nat) : ks.w.getD x 0 = ks.weight x := rfl

theorem getD_value (ks : Knapsack) (x : Nat) : ks.v.getD x 0 = ks.value x := rfl

theorem fsum_w_cast (ks : Knapsack) (u : Finset Nat) :
    ((fsum ks.w u : Nat) : ℚ) = u.sum fun e => (ks.weight e : ℚ) := by
  rw [fsum, Nat.cast_sum]
  rfl

theorem fsum_v_cast (ks : Knapsack) (u : Finset Nat) :
    ((fsum ks.v u : Nat) : ℚ) = u.sum fun e => (ks.value e : ℚ) := by
  rw [fsum, Nat.cast_sum]
  rfl

/-- Any set of items whose densities are all at most `D` has value sum at
most `D` times its weight sum. -/
theorem sum_value_le_sum_weight_mul (ks : Knapsack) {u : Finset Nat} {D : ℚ}
    (h : ∀ x ∈ u, 0 < ks.weight x ∧ ratDensity ks x ≤ D) :
    (fsum ks.v u : ℚ) ≤ (fsum ks.w u : ℚ) * D := by
  rw [fsum_v_cast, fsum_w_cast, Finset.sum_mul]
  apply Finset.sum_le_sum
  intro x hx
  obtain ⟨hwx, hdx⟩ := h x hx
  rw [value_eq_weight_mul_density ks hwx]
  exact mul_le_mul_of_nonneg_left hdx (Nat.cast_nonneg _)

/-! ### The fractional-relaxation bound over exact rationals -/

/-- The exact rational value of the accurate heuristic's fractional
relaxation computed by the source loop, with the remaining capacity `cap`
passed directly and no ceiling taken: whole items are added while they
fit, and the first overflowing item contributes the exact fractional fill. -/
def accBoundQ (ks : Knapsack) : List Nat → ℚ → ℚ
  | [], _ => 0
  | m :: rest, cap =>
    if (ks.weight m : ℚ) > cap then cap * (ks.value m : ℚ) / (ks.weight m : ℚ)
    else (ks.value m : ℚ) + accBoundQ ks rest (cap - (ks.weight m : ℚ))

theorem accBoundQ_nonneg (ks : Knapsack) :
    ∀ (rest : List Nat) (cap : ℚ), 0 ≤ cap → 0 ≤ accBoundQ ks rest cap := by
  intro rest
  induction rest with
  | nil => intro cap _; simp [accBoundQ]
  | cons m rest ih =>
    intro cap hcap
    rw [accBoundQ]
    by_cases h : (ks.weight m : ℚ) > cap
    · rw [if_pos h]
      positivity
    · rw [if_neg h]
      have : (0 : ℚ) ≤ cap - ks.weight m := by linarith [not_lt.mp h]
      have := ih _ this
      positivity

/-- The fractional relaxation never exceeds filling all remaining capacity
at a density `D` dominating every remaining item's density. -/
theorem accBoundQ_le_mul (ks : Knapsack) {D : ℚ} (hD : 0 ≤ D) :
    ∀ (rest : List Nat) (cap : ℚ), 0 ≤ cap →
      (∀ m ∈ rest, 0 < ks.weight m ∧ ratDensity ks m ≤ D) →
      accBoundQ ks rest cap ≤ cap * D := by
  intro rest
  induction rest with
  | nil => intro cap hcap _; simpa [accBoundQ] using mul_nonneg hcap hD
  | cons m rest ih =>
    intro cap hcap hall
    obtain ⟨hwm, hdm⟩ := hall m (List.mem_cons_self _ _)
    have hwm' : (0 : ℚ) < (ks.weight m : ℚ) := by exact_mod_cast hwm
    rw [accBoundQ]
    by_cases h : (ks.weight m : ℚ) > cap
    · rw [if_pos h, mul_div_assoc]
      have : (ks.value m : ℚ) / (ks.weight m : ℚ) = ratDensity ks m := rfl
      rw [this]
      exact mul_le_mul_of_nonneg_left hdm hcap
    · rw [if_neg h]
      have hle : (ks.weight m : ℚ) ≤ cap := not_lt.mp h
      have hrec := ih (cap - ks.weight m) (by linarith)
        (fun x hx => hall x (List.mem_cons_of_mem _ hx))
      have hvm : (ks.value m : ℚ) = (ks.weight m : ℚ) * ratDensity ks m :=
        value_eq_weight_mul_density ks hwm
      have hwD : (ks.weight m : ℚ) * ratDensity ks m ≤ (ks.weight m : ℚ) * D :=
        mul_le_mul_of_nonneg_left hdm (le_of_lt hwm')
      calc (ks.value m : ℚ) + accBoundQ ks rest (cap - ks.weight m)
          ≤ (ks.weight m : ℚ) * D + (cap - ks.weight m) * D := by
            rw [hvm]; exact add_le_add hwD hrec
        _ = cap * D := by ring

/-- Shrinking the capacity from `cap` to `cap'` lowers the fractional
relaxation by at most `(cap - cap') * D` when `D` dominates every
remaining density. -/
theorem accBoundQ_lipschitz (ks : Knapsack) {D : ℚ} (hD : 0 ≤ D) :
    ∀ (rest : List Nat) (cap cap' : ℚ), 0 ≤ cap' → cap' ≤ cap →
      (∀ m ∈ rest, 0 < ks.weight m ∧ ratDensity ks m ≤ D) →
      accBoundQ ks rest cap ≤ accBoundQ ks rest cap' + (cap - cap') * D := by
  intro rest
  induction rest with
  | nil =>
    intro cap cap' h0 hle _
    have : 0 ≤ (cap - cap') * D := mul_nonneg (by linarith) hD
    simp [accBoundQ]
    linarith
  | cons m rest ih =>
    intro cap cap' h0 hle hall
    obtain ⟨hwm, hdm⟩ := hall m (List.mem_cons_self _ _)
    have hwm' : (0 : ℚ) < (ks.weight m : ℚ) := by exact_mod_cast hwm
    have hdm0 : 0 ≤ ratDensity ks m := ratDensity_nonneg ks m
    have htail : ∀ x ∈ rest, 0 < ks.weight x ∧ ratDensity ks x ≤ D :=
      fun x hx => hall x (List.mem_cons_of_mem _ hx)
    rw [accBoundQ, accBoundQ]
    by_cases h1 : (ks.weight m : ℚ) > cap
    · have h2 : (ks.weight m : ℚ) > cap' := lt_of_le_of_lt hle h1
      rw [if_pos h1, if_pos h2, mul_div_assoc, mul_div_assoc]
      have hd : (ks.value m : ℚ) / (ks.weight m : ℚ) = ratDensity ks m := rfl
      rw [hd]
      have : (cap - cap') * ratDensity ks m ≤ (cap - cap') * D :=
        mul_le_mul_of_nonneg_left hdm (by linarith)
      nlinarith
    · have hmc : (ks.weight m : ℚ) ≤ cap := not_lt.mp h1
      rw [if_neg h1]
      by_cases h2 : (ks.weight m : ℚ) > cap'
      · -- the item fits within `cap` but not within `cap'`
        rw [if_pos h2, mul_div_assoc]
        have hd : (ks.value m : ℚ) / (ks.weight m : ℚ) = ratDensity ks m := rfl
        rw [hd]
        have hz := accBoundQ_le_mul ks hD rest (cap - ks.weight m)
          (by linarith) htail
        have hvm : (ks.value m : ℚ) = (ks.weight m : ℚ) * ratDensity ks m :=
          value_eq_weight_mul_density ks hwm
        have hkey : (0 : ℚ) ≤ ((ks.weight m : ℚ) - cap') * (D - ratDensity ks m) :=
          mul_nonneg (by linarith) (by linarith)
        nlinarith
      · rw [if_neg h2]
        have hmc' : (ks.weight m : ℚ) ≤ cap' := not_lt.mp h2
        have hrec := ih (cap - ks.weight m) (cap' - ks.weight m)
          (by linarith) (by linarith) htail
        have heq : cap - ks.weight m - (cap' - ks.weight m) = cap - cap' := by ring
        rw [heq] at hrec
        linarith

theorem pairwise_density_head {ks : Knapsack} {m : Nat} {rest : List Nat}
    (hw : ∀ x ∈ m :: rest, 0 < ks.weight x)
    (hpair : (m :: rest).Pairwise (densGE ks)) :
    ∀ x ∈ m :: rest, 0 < ks.weight x ∧ ratDensity ks x ≤ ratDensity ks m := by
  intro x hx
  refine ⟨hw x hx, ?_⟩
  rcases List.mem_cons.mp hx with rfl | hx'
  · exact le_refl _
  · exact ratDensity_le_of_densGE (hw m (List.mem_cons_self _ _)) (hw x hx)
      ((List.pairwise_cons.mp hpair).1 x hx')

/-- Admissibility of the exact fractional relaxation: every subset of the
remaining items whose weight sum fits in the remaining capacity has value
sum at most the relaxation value. -/
theorem accBoundQ_adm (ks : Knapsack) :
    ∀ (rest : List Nat) (cap : ℚ) (u : Finset Nat),
      rest.Pairwise (densGE ks) →
      (∀ m ∈ rest, 0 < ks.weight m) →
      0 ≤ cap →
      (∀ x ∈ u, x ∈ rest) →
      (fsum ks.w u : ℚ) ≤ cap →
      (fsum ks.v u : ℚ) ≤ accBoundQ ks rest cap := by
  intro rest
  induction rest with
  | nil =>
    intro cap u _ _ hcap hu _
    have : u = ∅ := Finset.eq_empty_of_forall_not_mem fun x hx =>
      (List.not_mem_nil x) (hu x hx)
    subst this
    simpa [accBoundQ, fsum_empty] using hcap
  | cons m rest ih =>
    intro cap u hpair hw hcap hu hfeas
    have hwm : 0 < ks.weight m := hw m (List.mem_cons_self _ _)
    have hwm' : (0 : ℚ) < (ks.weight m : ℚ) := by exact_mod_cast hwm
    have hdm0 : 0 ≤ ratDensity ks m := ratDensity_nonneg ks m
    have hdens := pairwise_density_head hw hpair
    have htailw : ∀ x ∈ rest, 0 < ks.weight x :=
      fun x hx => hw x (List.mem_cons_of_mem _ hx)
    have htailpair := (List.pairwise_cons.mp hpair).2
    rw [accBoundQ]
    by_cases h : (ks.weight m : ℚ) > cap
    · rw [if_pos h, mul_div_assoc]
      have hd : (ks.value m : ℚ) / (ks.weight m : ℚ) = ratDensity ks m := rfl
      rw [hd]
      have h1 : (fsum ks.v u : ℚ) ≤ (fsum ks.w u : ℚ) * ratDensity ks m :=
        sum_value_le_sum_weight_mul ks fun x hx => hdens x (hu x hx)
      have h2 : (fsum ks.w u : ℚ) * ratDensity ks m ≤ cap * ratDensity ks m :=
        mul_le_mul_of_nonneg_right hfeas hdm0
      linarith
    · have hmc : (ks.weight m : ℚ) ≤ cap := not_lt.mp h
      rw [if_neg h]
      by_cases hmu : m ∈ u
      · have herase : fsum ks.v u = ks.value m + fsum ks.v (u.erase m) :=
          fsum_erase_of_mem ks.v hmu
        have heraseW : fsum ks.w u = ks.weight m + fsum ks.w (u.erase m) :=
          fsum_erase_of_mem ks.w hmu
        have hu' : ∀ x ∈ u.erase m, x ∈ rest := by
          intro x hx
          rcases List.mem_cons.mp (hu x (Finset.mem_of_mem_erase hx)) with rfl | h'
          · exact absurd rfl (Finset.ne_of_mem_erase hx)
          · exact h'
        have hfeas' : (fsum ks.w (u.erase m) : ℚ) ≤ cap - ks.weight m := by
          have : ((ks.weight m + fsum ks.w (u.erase m) : Nat) : ℚ) ≤ cap := by
            rw [← heraseW]; exact hfeas
          push_cast at this
          linarith
        have hrec := ih (cap - ks.weight m) (u.erase m) htailpair htailw
          (by linarith) hu' hfeas'
        have : ((ks.value m + fsum ks.v (u.erase m) : Nat) : ℚ) ≤
            (ks.value m : ℚ) + accBoundQ ks rest (cap - ks.weight m) := by
          push_cast
          linarith
        rw [herase]
        exact this
      · have hu' : ∀ x ∈ u, x ∈ rest := by
          intro x hx
          rcases List.mem_cons.mp (hu x hx) with rfl | h'
          · exact absurd hx hmu
          · exact h'
        have hrec := ih cap u htailpair htailw hcap hu' hfeas
        have hlip := accBoundQ_lipschitz ks hdm0 rest cap (cap - ks.weight m)
          (by linarith) (by linarith)
          (fun x hx => ⟨htailw x hx,
            ratDensity_le_of_densGE hwm (htailw x hx)
              ((List.pairwise_cons.mp hpair).1 x hx)⟩)
        have hvm : (ks.value m : ℚ) = (ks.weight m : ℚ) * ratDensity ks m :=
          value_eq_weight_mul_density ks hwm
        have heq : cap - (cap - (ks.weight m : ℚ)) = (ks.weight m : ℚ) := by ring
        rw [heq] at hlip
        rw [← hvm] at hlip
        linarith

/-- The source's accurate bound (with the single ceiling taken at the
fractional break) dominates the exact fractional relaxation at remaining
capacity `c - acc_weight`. -/
theorem accBoundQ_le_accurateBound (ks : Knapsack) :
    ∀ (rest : List Nat) (aw : Nat), aw ≤ ks.c →
      (∀ m ∈ rest, 0 < ks.weight m) →
      accBoundQ ks rest ((ks.c - aw : Nat) : ℚ) ≤ (accurateBound ks rest aw : ℚ) := by
  intro rest
  induction rest with
  | nil => intro aw _ _; simp [accBoundQ, accurateBound]
  | cons m rest ih =>
    intro aw haw hw
    have hwm : 0 < ks.weight m := hw m (List.mem_cons_self _ _)
    have hcast : ((ks.c - aw : Nat) : ℚ) = (ks.c : ℚ) - (aw : ℚ) := by
      exact Nat.cast_sub haw
    rw [accBoundQ, accurateBound]
    by_cases hN : ks.weight m + aw > ks.c
    · have hQ : (ks.weight m : ℚ) > ((ks.c - aw : Nat) : ℚ) := by
        rw [hcast]
        have : (ks.c : ℚ) < (ks.weight m : ℚ) + (aw : ℚ) := by exact_mod_cast hN
        linarith
      rw [if_pos hQ, if_pos hN]
      have h := ratio_le_ceilDiv ((ks.c - aw) * ks.value m) hwm
      have hm : (((ks.c - aw) * ks.value m : Nat) : ℚ) =
          ((ks.c - aw : Nat) : ℚ) * (ks.value m : ℚ) := by push_cast; ring
      rw [hm] at h
      rw [mul_div_assoc] at h ⊢
      exact h
    · have hle : ks.weight m + aw ≤ ks.c := not_lt.mp hN
      have hQ : ¬ ((ks.weight m : ℚ) > ((ks.c - aw : Nat) : ℚ)) := by
        rw [hcast]
        have : (ks.weight m : ℚ) + (aw : ℚ) ≤ (ks.c : ℚ) := by exact_mod_cast hle
        linarith
      rw [if_neg hQ, if_neg hN]
      have hrec := ih (aw + ks.weight m) (by omega)
        (fun x hx => hw x (List.mem_cons_of_mem _ hx))
      have hcast2 : ((ks.c - aw : Nat) : ℚ) - (ks.weight m : ℚ) =
          ((ks.c - (aw + ks.weight m) : Nat) : ℚ) := by
        have h1 : aw + ks.weight m ≤ ks.c := by omega
        rw [Nat.cast_sub haw, Nat.cast_sub h1]
        push_cast
        ring
      rw [hcast2]
      push_cast
      linarith

/-- Converse bridge: any natural number dominating the exact fractional
relaxation dominates the source's accurate bound. -/
theorem accurateBound_le_of_accBoundQ_le (ks : Knapsack) :
    ∀ (rest : List Nat) (aw k : Nat), aw ≤ ks.c →
      (∀ m ∈ rest, 0 < ks.weight m) →
      accBoundQ ks rest ((ks.c - aw : Nat) : ℚ) ≤ (k : ℚ) →
      accurateBound ks rest aw ≤ k := by
  intro rest
  induction rest with
  | nil => intro aw k _ _ _; simp [accurateBound]
  | cons m rest ih =>
    intro aw k haw hw hQle
    have hwm : 0 < ks.weight m := hw m (List.mem_cons_self _ _)
    have hcast : ((ks.c - aw : Nat) : ℚ) = (ks.c : ℚ) - (aw : ℚ) := by
      exact Nat.cast_sub haw
    rw [accBoundQ] at hQle
    rw [accurateBound]
    by_cases hN : ks.weight m + aw > ks.c
    · have hQ : (ks.weight m : ℚ) > ((ks.c - aw : Nat) : ℚ) := by
        rw [hcast]
        have : (ks.c : ℚ) < (ks.weight m : ℚ) + (aw : ℚ) := by exact_mod_cast hN
        linarith
      rw [if_pos hQ] at hQle
      rw [if_pos hN]
      refine ceilDiv_le_of_ratio hwm ?_
      have hm : (((ks.c - aw) * ks.value m : Nat) : ℚ) =
          ((ks.c - aw : Nat) : ℚ) * (ks.value m : ℚ) := by push_cast; ring
      rw [hm, mul_div_assoc]
      rw [mul_div_assoc] at hQle
      exact hQle
    · have hle : ks.weight m + aw ≤ ks.c := not_lt.mp hN
      have hQ : ¬ ((ks.weight m : ℚ) > ((ks.c - aw : Nat) : ℚ)) := by
        rw [hcast]
        have : (ks.weight m : ℚ) + (aw : ℚ) ≤ (ks.c : ℚ) := by exact_mod_cast hle
        linarith
      rw [if_neg hQ] at hQle
      rw [if_neg hN]
      have hcast2 : ((ks.c - aw : Nat) : ℚ) - (ks.weight m : ℚ) =
          ((ks.c - (aw + ks.weight m) : Nat) : ℚ) := by
        have h1 : aw + ks.weight m ≤ ks.c := by omega
        rw [Nat.cast_sub haw, Nat.cast_sub h1]
        push_cast
        ring
      rw [hcast2] at hQle
      have hQ0 : 0 ≤ accBoundQ ks rest ((ks.c - (aw + ks.weight m) : Nat) : ℚ) :=
        accBoundQ_nonneg ks rest _ (Nat.cast_nonneg _)
      have hvk : ks.value m ≤ k := by
        have : (ks.value m : ℚ) ≤ (k : ℚ) := by linarith
        exact_mod_cast this
      have hin : accBoundQ ks rest ((ks.c - (aw + ks.weight m) : Nat) : ℚ) ≤
          ((k - ks.value m : Nat) : ℚ) := by
        have : ((k - ks.value m : Nat) : ℚ) = (k : ℚ) - (ks.value m : ℚ) := by
          exact Nat.cast_sub hvk
        rw [this]
        linarith
      have := ih (aw + ks.weight m) (k - ks.value m) (by omega)
        (fun x hx => hw x (List.mem_cons_of_mem _ hx)) hin
      omega

/-- Admissibility of the fast bound at a node whose next item in density
order is `j`: the value sum of any feasible completion from the remaining
items is at most `ceil(rem_weight * v[j]/w[j])`. -/
theorem fastBound_adm (ks : Knapsack) {j : Nat} {rest : List Nat}
    {weight : Nat} {u : Finset Nat}
    (hw : ∀ m ∈ j :: rest, 0 < ks.weight m)
    (hpair : (j :: rest).Pairwise (densGE ks))
    (hwc : weight ≤ ks.c)
    (hu : ∀ x ∈ u, x ∈ j :: rest)
    (hfeas : weight + fsum ks.w u ≤ ks.c) :
    fsum ks.v u ≤ fastBound ks j weight := by
  have hwj : 0 < ks.weight j := hw j (List.mem_cons_self _ _)
  have hdens := pairwise_density_head hw hpair
  have h1 : (fsum ks.v u : ℚ) ≤ (fsum ks.w u : ℚ) * ratDensity ks j :=
    sum_value_le_sum_weight_mul ks fun x hx => hdens x (hu x hx)
  have h2 : (fsum ks.w u : ℚ) ≤ ((ks.c - weight : Nat) : ℚ) := by
    have : fsum ks.w u ≤ ks.c - weight := by omega
    exact_mod_cast this
  have h3 : (fsum ks.w u : ℚ) * ratDensity ks j ≤
      ((ks.c - weight : Nat) : ℚ) * ratDensity ks j :=
    mul_le_mul_of_nonneg_right h2 (ratDensity_nonneg ks j)
  refine le_ceilDiv_of_ratio hwj ?_
  have hm : (((ks.c - weight) * ks.value j : Nat) : ℚ) =
      ((ks.c - weight : Nat) : ℚ) * (ks.value j : ℚ) := by push_cast; ring
  rw [hm, mul_div_assoc]
  have hd : (ks.value j : ℚ) / (ks.weight j : ℚ) = ratDensity ks j := rfl
  rw [hd]
  linarith

/-- Admissibility of the accurate bound: the value sum of any feasible
completion from the remaining items is at most the source's fractional
relaxation bound. -/
theorem accurateBound_adm (ks : Knapsack) {rest : List Nat}
    {weight : Nat} {u : Finset Nat}
    (hw : ∀ m ∈ rest, 0 < ks.weight m)
    (hpair : rest.Pairwise (densGE ks))
    (hwc : weight ≤ ks.c)
    (hu : ∀ x ∈ u, x ∈ rest)
    (hfeas : weight + fsum ks.w u ≤ ks.c) :
    fsum ks.v u ≤ accurateBound ks rest weight := by
  have h1 : (fsum ks.v u : ℚ) ≤ accBoundQ ks rest ((ks.c - weight : Nat) : ℚ) := by
    refine accBoundQ_adm ks rest _ u hpair hw (Nat.cast_nonneg _) hu ?_
    have : fsum ks.w u ≤ ks.c - weight := by omega
    exact_mod_cast this
  have h2 := accBoundQ_le_accurateBound ks rest weight hwc hw
  have : (fsum ks.v u : ℚ) ≤ (accurateBound ks rest weight : ℚ) := le_trans h1 h2
  exact_mod_cast this

/-- The accurate bound never exceeds the fast bound at the same node. -/
theorem accurateBound_le_fastBound (ks : Knapsack) {j : Nat} {rest : List Nat}
    {weight : Nat}
    (hw : ∀ m ∈ j :: rest, 0 < ks.weight m)
    (hpair : (j :: rest).Pairwise (densGE ks))
    (hwc : weight ≤ ks.c) :
    accurateBound ks (j :: rest) weight ≤ fastBound ks j weight := by
  have hwj : 0 < ks.weight j := hw j (List.mem_cons_self _ _)
  have hdens := pairwise_density_head hw hpair
  refine accurateBound_le_of_accBoundQ_le ks (j :: rest) weight _ hwc
    (fun m hm => hw m hm) ?_
  have hz := accBoundQ_le_mul ks (ratDensity_nonneg ks j) (j :: rest)
    ((ks.c - weight : Nat) : ℚ) (Nat.cast_nonneg _) hdens
  have hr := ratio_le_ceilDiv ((ks.c - weight) * ks.value j) hwj
  have hm : (((ks.c - weight) * ks.value j : Nat) : ℚ) =
      ((ks.c - weight : Nat) : ℚ) * (ks.value j : ℚ) := by push_cast; ring
  rw [hm, mul_div_assoc] at hr
  have hd : (ks.value j : ℚ) / (ks.weight j : ℚ) = ratDensity ks j := rfl
  rw [hd] at hr
  exact le_trans hz hr

theorem le_fsum_of_mem (a : List Nat) {j : Nat} {u : Finset Nat} (hj : j ∈ u) :
    a.getD j 0 ≤ fsum a u := by
  unfold fsum
  exact Finset.single_le_sum (f := fun e => a.getD e 0) (fun i _ => Nat.zero_le _) hj

theorem fsum_of_forall_nil {a : List Nat} {u : Finset Nat}
    (hu : ∀ x ∈ u, x ∈ ([] : List Nat)) : fsum a u = 0 := by
  have : u = ∅ := Finset.eq_empty_of_forall_not_mem fun x hx =>
    (List.not_mem_nil x) (hu x hx)
  rw [this, fsum_empty]

/-- Master specification of `ks_dfs_step` on a valid heuristic selector:
the call returns normally, the returned pair is value-consistent, feasible
and drawn from `0..n-1`, the best value never decreases, and its final
value dominates `val` plus the value of every feasible completion chosen
from the remaining items. -/
theorem ks_dfs_step_spec (ks : Knapsack) (bb : Option Nat)
    (hbb : validBB bb) (hw : ∀ j, j < ks.n → 0 < ks.weight j) :
    ∀ (rest : List Nat) (T : Finset Nat) (val weight : Nat)
      (st : Finset Nat × Nat),
      (∀ j ∈ rest, j < ks.n) →
      rest.Pairwise (densGE ks) →
      rest.Nodup →
      (∀ j ∈ rest, j ∉ T) →
      val = fsum ks.v T →
      weight = fsum ks.w T →
      weight ≤ ks.c →
      (∀ j ∈ T, j < ks.n) →
      st.2 = fsum ks.v st.1 →
      fsum ks.w st.1 ≤ ks.c →
      (∀ j ∈ st.1, j < ks.n) →
      ∃ r, ks_dfs_step ks bb rest T val weight st = Except.ok r ∧
        r.2 = fsum ks.v r.1 ∧
        fsum ks.w r.1 ≤ ks.c ∧
        (∀ j ∈ r.1, j < ks.n) ∧
        st.2 ≤ r.2 ∧
        ∀ u : Finset Nat, (∀ x ∈ u, x ∈ rest) →
          weight + fsum ks.w u ≤ ks.c → val + fsum ks.v u ≤ r.2 := by
  intro rest
  induction rest with
  | nil =>
    intro T val weight st _ _ _ _ hval hwt hcap hTn hstv hstw hstn
    simp only [ks_dfs_step]
    by_cases hup : val > st.2
    · refine ⟨(T, val), by rw [if_pos hup], hval, by rw [← hwt]; exact hcap,
        hTn, le_of_lt hup, ?_⟩
      intro u hu _
      rw [fsum_of_forall_nil hu]
      simp
    · refine ⟨st, by rw [if_neg hup], hstv, hstw, hstn, le_refl _, ?_⟩
      intro u hu _
      rw [fsum_of_forall_nil hu]
      simpa using not_lt.mp hup
  | cons j rest2 ih =>
    intro T val weight st hmem hpair hnd hdisj hval hwt hcap hTn hstv hstw hstn
    have hjn : j < ks.n := hmem j (List.mem_cons_self _ _)
    have hwj : 0 < ks.weight j := hw j hjn
    have hjT : j ∉ T := hdisj j (List.mem_cons_self _ _)
    have hjr : j ∉ rest2 := (List.nodup_cons.mp hnd).1
    have hmem2 : ∀ x ∈ rest2, x < ks.n :=
      fun x hx => hmem x (List.mem_cons_of_mem _ hx)
    have hpair2 := (List.pairwise_cons.mp hpair).2
    have hnd2 := (List.nodup_cons.mp hnd).2
    have hwrest : ∀ m ∈ j :: rest2, 0 < ks.weight m := fun m hm => hw m (hmem m hm)
    -- the updated best pair
    obtain ⟨st1, hst1_def, h1v, h1w, h1n, h1mono, h1val⟩ :
        ∃ st1 : Finset Nat × Nat,
          (if val > st.2 then (T, val) else st) = st1 ∧
          st1.2 = fsum ks.v st1.1 ∧ fsum ks.w st1.1 ≤ ks.c ∧
          (∀ x ∈ st1.1, x < ks.n) ∧ st.2 ≤ st1.2 ∧ val ≤ st1.2 := by
      by_cases hup : val > st.2
      · exact ⟨(T, val), by rw [if_pos hup], hval, by rw [← hwt]; exact hcap,
          hTn, le_of_lt hup, le_refl _⟩
      · exact ⟨st, by rw [if_neg hup], hstv, hstw, hstn, le_refl _, not_lt.mp hup⟩
    -- the include-then-exclude continuation, independent of the selector
    have hcont : ∃ r,
        (if weight + ks.weight j ≤ ks.c then
          match ks_dfs_step ks bb rest2 (insert j T) (val + ks.value j)
              (weight + ks.weight j) st1 with
          | Except.error e => Except.error e
          | Except.ok st2 => ks_dfs_step ks bb rest2 T val weight st2
        else ks_dfs_step ks bb rest2 T val weight st1) = Except.ok r ∧
        r.2 = fsum ks.v r.1 ∧
        fsum ks.w r.1 ≤ ks.c ∧
        (∀ x ∈ r.1, x < ks.n) ∧
        st1.2 ≤ r.2 ∧
        ∀ u : Finset Nat, (∀ x ∈ u, x ∈ j :: rest2) →
          weight + fsum ks.w u ≤ ks.c → val + fsum ks.v u ≤ r.2 := by
      by_cases hfit : weight + ks.weight j ≤ ks.c
      · -- include branch first
        have hdisj' : ∀ x ∈ rest2, x ∉ insert j T := by
          intro x hx hmemx
          rcases Finset.mem_insert.mp hmemx with rfl | hxT
          · exact hjr hx
          · exact hdisj x (List.mem_cons_of_mem _ hx) hxT
        have hvalI : val + ks.value j = fsum ks.v (insert j T) := by
          rw [fsum_insert _ hjT, getD_value, hval, Nat.add_comm]
        have hwtI : weight + ks.weight j = fsum ks.w (insert j T) := by
          rw [fsum_insert _ hjT, getD_weight, hwt, Nat.add_comm]
        have hTnI : ∀ x ∈ insert j T, x < ks.n := by
          intro x hx
          rcases Finset.mem_insert.mp hx with rfl | hxT
          · exact hjn
          · exact hTn x hxT
        obtain ⟨st2, hst2eq, h2v, h2w, h2n, h2mono, h2compl⟩ :=
          ih (insert j T) (val + ks.value j) (weight + ks.weight j) st1
            hmem2 hpair2 hnd2 hdisj' hvalI hwtI hfit hTnI h1v h1w h1n
        obtain ⟨r, hreq, hrv, hrw, hrn, hrmono, hrcompl⟩ :=
          ih T val weight st2 hmem2 hpair2 hnd2
            (fun x hx => hdisj x (List.mem_cons_of_mem _ hx))
            hval hwt hcap hTn h2v h2w h2n
        refine ⟨r, ?_, hrv, hrw, hrn, le_trans h2mono hrmono, ?_⟩
        · rw [if_pos hfit, hst2eq]
          exact hreq
        · intro u hu hfeas
          by_cases hju : j ∈ u
          · have hvU : fsum ks.v u = ks.value j + fsum ks.v (u.erase j) := by
              rw [fsum_erase_of_mem ks.v hju, getD_value]
            have hwU : fsum ks.w u = ks.weight j + fsum ks.w (u.erase j) := by
              rw [fsum_erase_of_mem ks.w hju, getD_weight]
            have hu' : ∀ x ∈ u.erase j, x ∈ rest2 := by
              intro x hx
              rcases List.mem_cons.mp (hu x (Finset.mem_of_mem_erase hx)) with rfl | h'
              · exact absurd rfl (Finset.ne_of_mem_erase hx)
              · exact h'
            have hkey := h2compl (u.erase j) hu' (by omega)
            have := hrmono
            omega
          · have hu' : ∀ x ∈ u, x ∈ rest2 := by
              intro x hx
              rcases List.mem_cons.mp (hu x hx) with rfl | h'
              · exact absurd hx hju
              · exact h'
            exact hrcompl u hu' hfeas
      · -- the include branch is skipped entirely
        obtain ⟨r, hreq, hrv, hrw, hrn, hrmono, hrcompl⟩ :=
          ih T val weight st1 hmem2 hpair2 hnd2
            (fun x hx => hdisj x (List.mem_cons_of_mem _ hx))
            hval hwt hcap hTn h1v h1w h1n
        refine ⟨r, ?_, hrv, hrw, hrn, hrmono, ?_⟩
        · rw [if_neg hfit, hreq]
        · intro u hu hfeas
          have hju : j ∉ u := by
            intro hju
            have := le_fsum_of_mem ks.w hju
            rw [getD_weight] at this
            omega
          have hu' : ∀ x ∈ u, x ∈ rest2 := by
            intro x hx
            rcases List.mem_cons.mp (hu x hx) with rfl | h'
            · exact absurd hx hju
            · exact h'
          exact hrcompl u hu' hfeas
    obtain ⟨r, hrbranch, hrv, hrw, hrn, hrmono, hrcompl⟩ := hcont
    rcases hbb with rfl | rfl | rfl
    · -- bb = none: no pruning
      refine ⟨r, ?_, hrv, hrw, hrn, le_trans h1mono hrmono, hrcompl⟩
      simp only [ks_dfs_step, pyTruthy, Bool.false_eq_true, if_false]
      rw [hst1_def]
      exact hrbranch
    · -- bb = HEURISTIC_FAST
      by_cases hp : val + fastBound ks j weight ≤ st1.2
      · refine ⟨st1, ?_, h1v, h1w, h1n, h1mono, ?_⟩
        · simp only [ks_dfs_step, pyTruthy, HEURISTIC_FAST]
          rw [hst1_def, decide_eq_true hp]
          simp
        · intro u hu hfeas
          have hadm := fastBound_adm ks hwrest hpair hcap hu hfeas
          omega
      · refine ⟨r, ?_, hrv, hrw, hrn, le_trans h1mono hrmono, hrcompl⟩
        simp only [ks_dfs_step, pyTruthy, HEURISTIC_FAST]
        rw [hst1_def, decide_eq_false hp]
        exact hrbranch
    · -- bb = HEURISTIC_ACCURATE
      by_cases hp : val + accurateBound ks (j :: rest2) weight ≤ st1.2
      · refine ⟨st1, ?_, h1v, h1w, h1n, h1mono, ?_⟩
        · simp only [ks_dfs_step, pyTruthy, HEURISTIC_FAST, HEURISTIC_ACCURATE]
          rw [hst1_def, decide_eq_true hp]
          simp
        · intro u hu hfeas
          have hadm := accurateBound_adm ks hwrest hpair hcap hu hfeas
          omega
      · refine ⟨r, ?_, hrv, hrw, hrn, le_trans h1mono hrmono, hrcompl⟩
        simp only [ks_dfs_step, pyTruthy, HEURISTIC_FAST, HEURISTIC_ACCURATE]
        rw [hst1_def, decide_eq_false hp]
        exact hrbranch

theorem Knapsack.WF.weight_pos {ks : Knapsack} (h : ks.WF) :
    ∀ j, j < ks.n → 0 < ks.weight j := by
  intro j hj
  obtain ⟨hl, _, hp, _⟩ := h
  have hj' : j < ks.w.length := by omega
  rw [Knapsack.weight, List.getD_eq_getElem ks.w 0 hj']
  exact hp _ (List.getElem_mem hj')

theorem Knapsack.WF.value_pos {ks : Knapsack} (h : ks.WF) :
    ∀ j, j < ks.n → 0 < ks.value j := by
  intro j hj
  obtain ⟨_, hl, _, hp⟩ := h
  have hj' : j < ks.v.length := by omega
  rw [Knapsack.value, List.getD_eq_getElem ks.v 0 hj']
  exact hp _ (List.getElem_mem hj')

/-- Top-level specification of `ks_dfs` on a well-formed instance and a
valid selector: it returns a consistent feasible pair whose value
dominates the value of every feasible subset of `0..n-1`. -/
theorem ks_dfs_spec (ks : Knapsack) (bb : Option Nat)
    (hbb : validBB bb) (hWF : ks.WF) :
    ∃ r, ks_dfs ks bb = Except.ok r ∧
      r.2 = fsum ks.v r.1 ∧ fsum ks.w r.1 ≤ ks.c ∧ (∀ j ∈ r.1, j < ks.n) ∧
      ∀ u : Finset Nat, (∀ x ∈ u, x < ks.n) → fsum ks.w u ≤ ks.c →
        fsum ks.v u ≤ r.2 := by
  have hw := hWF.weight_pos
  obtain ⟨r, heq, h1, h2, h3, _, hcompl⟩ :=
    ks_dfs_step_spec ks bb hbb hw (densityOrder ks) ∅ 0 0 (∅, 0)
      (fun j hj => mem_densityOrder.mp hj)
      (densityOrder_sorted ks hw)
      (densityOrder_nodup ks)
      (by simp)
      (by rw [fsum_empty])
      (by rw [fsum_empty])
      (Nat.zero_le _)
      (by simp)
      (by rw [fsum_empty])
      (by rw [fsum_empty]; exact Nat.zero_le _)
      (by simp)
  refine ⟨r, heq, h1, h2, h3, ?_⟩
  intro u hu hfeas
  have := hcompl u (fun x hx => mem_densityOrder.mpr (hu x hx)) (by omega)
  omega

/-- The central equivalence: on a well-formed instance, `ks_dfs` with any
valid heuristic selector returns the same best value as `ks_brute_force`. -/
theorem ks_dfs_val_eq_brute_force (ks : Knapsack) (bb : Option Nat)
    (hbb : validBB bb) (hWF : ks.WF) :
    ∃ r, ks_dfs ks bb = Except.ok r ∧ r.2 = (ks_brute_force ks).2 := by
  obtain ⟨r, heq, h1, h2, h3, hcompl⟩ := ks_dfs_spec ks bb hbb hWF
  obtain ⟨b1, b2, b3, b4⟩ := ks_brute_force_spec ks
  refine ⟨r, heq, le_antisymm ?_ ?_⟩
  · rw [h1]
    exact b4 r.1 h3 h2
  · rw [b1]
    exact hcompl (ks_brute_force ks).1 b3 b2

theorem fsum_singleton (a : List Nat) (j : Nat) : fsum a {j} = a.getD j 0 :=
  Finset.sum_singleton _ _

/-- With at least one item, a truthy selector other than `HEURISTIC_FAST`
and `HEURISTIC_ACCURATE` hits `exit("unknown heuristic")` at the first
search node. -/
theorem ks_dfs_unknown_heuristic (ks : Knapsack) (k : Nat)
    (hn : 0 < ks.n) (hk0 : k ≠ 0) (hk1 : k ≠ 1) (hk2 : k ≠ 2) :
    ks_dfs ks (some k) = Except.error "unknown heuristic" := by
  have hlen : (densityOrder ks).length = ks.n := densityOrder_length ks
  rw [ks_dfs]
  cases hS : densityOrder ks with
  | nil => rw [hS] at hlen; simp at hlen; omega
  | cons j rest2 =>
    simp only [ks_dfs_step, pyTruthy, HEURISTIC_FAST, HEURISTIC_ACCURATE]
    simp [hk0, hk1, hk2]

/-- With zero capacity and positive weights, the search never updates the
initial best pair: no item fits and the running value stays `0`. -/
theorem ks_dfs_step_capacity_zero (ks : Knapsack) (bb : Option Nat)
    (hbb : validBB bb) (hc : ks.c = 0) :
    ∀ rest : List Nat, (∀ j ∈ rest, 0 < ks.weight j) →
      ks_dfs_step ks bb rest ∅ 0 0 (∅, 0) = Except.ok (∅, 0) := by
  intro rest
  induction rest with
  | nil => intro _; simp [ks_dfs_step]
  | cons j rest2 ih =>
    intro hw
    have hwj : 0 < ks.weight j := hw j (List.mem_cons_self _ _)
    have hih := ih fun x hx => hw x (List.mem_cons_of_mem _ hx)
    have hif : ¬ (ks.weight j ≤ ks.c) := by omega
    rcases hbb with rfl | rfl | rfl
    · simp [ks_dfs_step, pyTruthy, hif, hih]
    · by_cases hp : fastBound ks j 0 = 0
      · simp [ks_dfs_step, pyTruthy, HEURISTIC_FAST, HEURISTIC_ACCURATE, hp]
      · simp only [ks_dfs_step, pyTruthy, HEURISTIC_FAST, HEURISTIC_ACCURATE]
        simp [hp, hif]
        exact hih
    · by_cases hp : accurateBound ks (j :: rest2) 0 = 0
      · simp [ks_dfs_step, pyTruthy, HEURISTIC_FAST, HEURISTIC_ACCURATE, hp]
      · simp only [ks_dfs_step, pyTruthy, HEURISTIC_FAST, HEURISTIC_ACCURATE]
        simp [hp, hif]
        exact hih

/-- With zero capacity and positive weights the brute force keeps the
initial best pair: every nonempty subset is infeasible and the empty
subset does not strictly improve. -/
theorem ks_brute_force_capacity_zero (ks : Knapsack) (hWF : ks.WF)
    (hc : ks.c = 0) : ks_brute_force ks = (∅, 0) := by
  have hstep : ∀ t : Finset Nat, (∀ j ∈ t, j < ks.n) →
      bfStep ks (∅, 0) t = (∅, 0) := by
    intro t ht
    unfold bfStep
    rcases Finset.eq_empty_or_nonempty t with rfl | hne
    · simp [fsum_empty]
    · have hpos : 0 < fsum ks.w t :=
        fsum_pos ks.w hne fun x hx => by
          rw [getD_weight]; exact hWF.weight_pos x (ht x hx)
      rw [if_pos (by omega)]
  have hfold : ∀ L : List (Finset Nat), (∀ t ∈ L, ∀ j ∈ t, j < ks.n) →
      L.foldl (bfStep ks) (∅, 0) = (∅, 0) := by
    intro L
    induction L with
    | nil => intro _; rfl
    | cons t L ihL =>
      intro hL
      rw [List.foldl_cons, hstep t (hL t (List.mem_cons_self _ _))]
      exact ihL fun t' h => hL t' (List.mem_cons_of_mem _ h)
  rw [ks_brute_force_eq_foldl]
  refine hfold _ ?_
  intro t ht j hj
  exact List.mem_range.mp (mem_powerset_sound ht j hj)

/-- With no items both solvers return the initial `(set(), 0)` pair. -/
theorem solvers_no_items (ks : Knapsack) (bb : Option Nat) (hn : ks.n = 0) :
    ks_brute_force ks = (∅, 0) ∧ ks_dfs ks bb = Except.ok (∅, 0) := by
  constructor
  · rw [ks_brute_force_eq_foldl]
    have : powerset (List.range ks.n) = [∅] := by rw [hn]; rfl
    rw [this, List.foldl_cons]
    unfold bfStep
    simp [fsum_empty]
  · have hlen : (densityOrder ks).length = 0 := by rw [densityOrder_length, hn]
    have hnil : densityOrder ks = [] := List.length_eq_zero.mp hlen
    rw [ks_dfs, hnil]
    simp [ks_dfs_step]

/-- The concrete scenario instance: `n = 3`, capacity `5`,
weights `[2, 3, 4]`, values `[3, 4, 5]`. -/
def ksExample : Knapsack := ⟨5, 3, [2, 3, 4], [3, 4, 5]⟩

/-- An instance with no items (and positive capacity). -/
def ksNoItems : Knapsack := ⟨5, 0, [], []⟩

/-- An instance with a single item that fits. -/
def ksOneItem : Knapsack := ⟨5, 1, [2], [3]⟩

/-- Claim C1: for every instance with strictly positive weights and values
and non-negative capacity, and every heuristic choice in
`{none, fast, accurate}`, the best value returned by `ks_dfs` equals the
best value returned by `ks_brute_force`. -/
theorem claim_C1 (ks : Knapsack) (bb : Option Nat)
    (hWF : ks.WF) (hbb : validBB bb) :
    ∃ r, ks_dfs ks bb = Except.ok r ∧ r.2 = (ks_brute_force ks).2 :=
  ks_dfs_val_eq_brute_force ks bb hbb hWF

/-- Witness for C1 at the concrete scenario instance with the accurate
heuristic. -/
theorem claim_C1_witness :
    ∃ r, ks_dfs ksExample (some HEURISTIC_ACCURATE) = Except.ok r ∧
      r.2 = (ks_brute_force ksExample).2 :=
  claim_C1 ksExample (some HEURISTIC_ACCURATE) (by decide) (Or.inr (Or.inr rfl))

/-- Claim C2: `ks_brute_force` returns a pair `(max_t, max_val)` with
`max_val` the value sum of `max_t`, the weight sum of `max_t` at most the
capacity, and no subset of `0..n-1` that respects the capacity has a
strictly greater value sum. -/
theorem claim_C2 (ks : Knapsack) :
    (ks_brute_force ks).2 = fsum ks.v (ks_brute_force ks).1 ∧
      fsum ks.w (ks_brute_force ks).1 ≤ ks.c ∧
      ∀ t : Finset Nat, (∀ j ∈ t, j < ks.n) → fsum ks.w t ≤ ks.c →
        fsum ks.v t ≤ (ks_brute_force ks).2 := by
  obtain ⟨h1, h2, _, h4⟩ := ks_brute_force_spec ks
  exact ⟨h1, h2, h4⟩

/-- Witness for C2: the optimality part evaluated at the concrete
scenario instance on the feasible subset `{0, 1}`. -/
theorem claim_C2_witness :
    fsum ksExample.v {0, 1} ≤ (ks_brute_force ksExample).2 :=
  (claim_C2 ksExample).2.2 {0, 1} (by decide) (by decide)

/-- Claim C3: at every point of a `ks_dfs` search on a valid selector the
tracked best pair stays value-consistent and feasible, and the pairs
finally returned by `ks_dfs` and by `ks_brute_force` are feasible. -/
theorem claim_C3 (ks : Knapsack) (bb : Option Nat)
    (hWF : ks.WF) (hbb : validBB bb) :
    (∀ (rest : List Nat) (T : Finset Nat) (val weight : Nat)
        (st : Finset Nat × Nat),
      (∀ j ∈ rest, j < ks.n) → rest.Pairwise (densGE ks) → rest.Nodup →
      (∀ j ∈ rest, j ∉ T) → val = fsum ks.v T → weight = fsum ks.w T →
      weight ≤ ks.c → (∀ j ∈ T, j < ks.n) →
      st.2 = fsum ks.v st.1 → fsum ks.w st.1 ≤ ks.c →
      (∀ j ∈ st.1, j < ks.n) →
      ∃ r, ks_dfs_step ks bb rest T val weight st = Except.ok r ∧
        r.2 = fsum ks.v r.1 ∧ fsum ks.w r.1 ≤ ks.c) ∧
    (∃ r, ks_dfs ks bb = Except.ok r ∧
      fsum ks.w r.1 ≤ ks.c ∧ r.2 = fsum ks.v r.1) ∧
    fsum ks.w (ks_brute_force ks).1 ≤ ks.c ∧
    (ks_brute_force ks).2 = fsum ks.v (ks_brute_force ks).1 := by
  refine ⟨?_, ?_, (ks_brute_force_spec ks).2.1, (ks_brute_force_spec ks).1⟩
  · intro rest T val weight st h1 h2 h3 h4 h5 h6 h7 h8 h9 h10 h11
    obtain ⟨r, he, ha, hb, _⟩ := ks_dfs_step_spec ks bb hbb hWF.weight_pos
      rest T val weight st h1 h2 h3 h4 h5 h6 h7 h8 h9 h10 h11
    exact ⟨r, he, ha, hb⟩
  · obtain ⟨r, he, ha, hb, _, _⟩ := ks_dfs_spec ks bb hbb hWF
    exact ⟨r, he, hb, ha⟩

/-- Witness for C3 at the concrete scenario instance without heuristic. -/
theorem claim_C3_witness :
    ∃ r, ks_dfs ksExample none = Except.ok r ∧
      fsum ksExample.w r.1 ≤ ksExample.c ∧ r.2 = fsum ksExample.v r.1 :=
  (claim_C3 ksExample none (by decide) (Or.inl rfl)).2.1

/-- Claim C4: both heuristics are admissible — at a search node whose
remaining density-ordered items are `j :: rest` with accumulated weight
`weight`, the value sum of every feasible completion is at most the fast
bound and at most the accurate bound, so pruning on
`val + bound <= best` never discards the optimum. -/
theorem claim_C4 (ks : Knapsack) (j : Nat) (rest : List Nat) (weight : Nat)
    (u : Finset Nat)
    (hw : ∀ m ∈ j :: rest, 0 < ks.weight m)
    (hpair : (j :: rest).Pairwise (densGE ks))
    (hwc : weight ≤ ks.c)
    (hu : ∀ x ∈ u, x ∈ j :: rest)
    (hfeas : weight + fsum ks.w u ≤ ks.c) :
    fsum ks.v u ≤ fastBound ks j weight ∧
      fsum ks.v u ≤ accurateBound ks (j :: rest) weight :=
  ⟨fastBound_adm ks hw hpair hwc hu hfeas,
   accurateBound_adm ks hw hpair hwc hu hfeas⟩

/-- Witness for C4 at the root node of the concrete scenario instance with
completion `{0, 1}`. -/
theorem claim_C4_witness :
    fsum ksExample.v {0, 1} ≤ fastBound ksExample 0 0 ∧
      fsum ksExample.v {0, 1} ≤ accurateBound ksExample [0, 1, 2] 0 :=
  claim_C4 ksExample 0 [1, 2] 0 {0, 1} (by decide) (by decide) (by decide)
    (by decide) (by decide)

/-- Claim C5: at the same search node (same instance, same next item in
the density order, same accumulated weight) the accurate bound is at most
the fast bound. -/
theorem claim_C5 (ks : Knapsack) (j : Nat) (rest : List Nat) (weight : Nat)
    (hw : ∀ m ∈ j :: rest, 0 < ks.weight m)
    (hpair : (j :: rest).Pairwise (densGE ks))
    (hwc : weight ≤ ks.c) :
    accurateBound ks (j :: rest) weight ≤ fastBound ks j weight :=
  accurateBound_le_fastBound ks hw hpair hwc

/-- Witness for C5 at the root node of the concrete scenario instance. -/
theorem claim_C5_witness :
    accurateBound ksExample [0, 1, 2] 0 ≤ fastBound ksExample 0 0 :=
  claim_C5 ksExample 0 [1, 2] 0 (by decide) (by decide) (by decide)

/-- Claim C6 counterexample: on an instance with no items, `ks_dfs` with
the unknown selector `3` returns the result pair `(set(), 0)` normally —
the search returns at the leaf test before ever examining the selector, so
no fatal diagnostic is reported. -/
theorem claim_C6_counterexample :
    ks_dfs ksNoItems (some 3) = Except.ok (∅, 0) := by decide

/-- Claim C6 as amended: on every instance with at least one item, calling
`ks_dfs` with a truthy selector other than `HEURISTIC_FAST` and
`HEURISTIC_ACCURATE` terminates fatally with the diagnostic
`"unknown heuristic"` and returns no result pair. -/
theorem claim_C6 (ks : Knapsack) (k : Nat) (hn : 0 < ks.n)
    (hk0 : k ≠ 0) (hk1 : k ≠ HEURISTIC_FAST) (hk2 : k ≠ HEURISTIC_ACCURATE) :
    ks_dfs ks (some k) = Except.error "unknown heuristic" :=
  ks_dfs_unknown_heuristic ks k hn hk0 hk1 hk2

/-- Witness for the amended C6 on a one-item instance with selector `7`. -/
theorem claim_C6_witness :
    ks_dfs ksOneItem (some 7) = Except.error "unknown heuristic" :=
  claim_C6 ksOneItem 7 (by decide) (by decide) (by decide) (by decide)

/-- Claim C7: degenerate cases — with `n = 0` both solvers return the
empty subset with value `0`; with capacity `0` (and strictly positive
weights, as the instance invariant guarantees) both return the empty
subset with value `0`; with a single item whose weight fits, both return
the subset containing that item. -/
theorem claim_C7 (ks : Knapsack) (bb : Option Nat)
    (hWF : ks.WF) (hbb : validBB bb) :
    (ks.n = 0 → ks_brute_force ks = (∅, 0) ∧ ks_dfs ks bb = Except.ok (∅, 0)) ∧
    (ks.c = 0 → ks_brute_force ks = (∅, 0) ∧ ks_dfs ks bb = Except.ok (∅, 0)) ∧
    (ks.n = 1 → ks.weight 0 ≤ ks.c →
      ks_brute_force ks = ({0}, ks.value 0) ∧
        ks_dfs ks bb = Except.ok ({0}, ks.value 0)) := by
  refine ⟨fun hn => solvers_no_items ks bb hn, fun hc => ?_, fun hn1 hw0 => ?_⟩
  · refine ⟨ks_brute_force_capacity_zero ks hWF hc, ?_⟩
    rw [ks_dfs]
    exact ks_dfs_step_capacity_zero ks bb hbb hc (densityOrder ks)
      fun j hj => hWF.weight_pos j (mem_densityOrder.mp hj)
  · have hv0 : 0 < ks.value 0 := hWF.value_pos 0 (by omega)
    have hsing : ∀ t : Finset Nat, (∀ j ∈ t, j < ks.n) → t ⊆ {0} := by
      intro t ht j hj
      have := ht j hj
      simp only [Finset.mem_singleton]
      omega
    have hfeas0 : fsum ks.w {0} ≤ ks.c := by
      rw [fsum_singleton, getD_weight]; exact hw0
    have hval0 : fsum ks.v {0} = ks.value 0 := by
      rw [fsum_singleton, getD_value]
    have hmem0 : ∀ j ∈ ({0} : Finset Nat), j < ks.n := by
      intro j hj
      rw [Finset.mem_singleton.mp hj]
      omega
    constructor
    · obtain ⟨b1, b2, b3, b4⟩ := ks_brute_force_spec ks
      have hopt : ks.value 0 ≤ (ks_brute_force ks).2 := by
        have := b4 {0} hmem0 hfeas0
        rwa [hval0] at this
      rcases Finset.subset_singleton_iff.mp (hsing _ b3) with h0 | h0
      · rw [h0, fsum_empty] at b1
        omega
      · have hv : (ks_brute_force ks).2 = ks.value 0 := by
          rw [b1, h0, hval0]
        calc ks_brute_force ks
            = ((ks_brute_force ks).1, (ks_brute_force ks).2) := rfl
          _ = ({0}, ks.value 0) := by rw [h0, hv]
    · obtain ⟨r, he, h1, h2, h3, hcompl⟩ := ks_dfs_spec ks bb hbb hWF
      have hopt : ks.value 0 ≤ r.2 := by
        have := hcompl {0} (fun j hj => hmem0 j hj) hfeas0
        rwa [hval0] at this
      rcases Finset.subset_singleton_iff.mp (hsing _ h3) with h0 | h0
      · rw [h0, fsum_empty] at h1
        omega
      · have hv : r.2 = ks.value 0 := by rw [h1, h0, hval0]
        rw [he]
        have : r = ({0}, ks.value 0) := by
          calc r = (r.1, r.2) := rfl
            _ = ({0}, ks.value 0) := by rw [h0, hv]
        rw [this]

/-- Witness for C7: the single-item case at the one-item instance. -/
theorem claim_C7_witness :
    ks_brute_force ksOneItem = ({0}, ksOneItem.value 0) ∧
      ks_dfs ksOneItem none = Except.ok ({0}, ksOneItem.value 0) :=
  (claim_C7 ksOneItem none (by decide) (Or.inl rfl)).2.2 rfl (by decide)

/-- Claim C8: on the instance with weights `[2, 3, 4]`, values `[3, 4, 5]`
and capacity `5`, the brute force returns best value `7` achieved by items
`{0, 1}` (weight `5`), and `ks_dfs` returns best value `7` for each of the
three heuristic choices. -/
theorem claim_C8 :
    ks_brute_force ksExample = ({0, 1}, 7) ∧
      fsum ksExample.w {0, 1} = 5 ∧
      ks_dfs ksExample none = Except.ok ({0, 1}, 7) ∧
      ks_dfs ksExample (some HEURISTIC_FAST) = Except.ok ({0, 1}, 7) ∧
      ks_dfs ksExample (some HEURISTIC_ACCURATE) = Except.ok ({0, 1}, 7) :=
  ⟨by decide, by decide, by decide, by decide, by decide⟩

/-- Claim C9: the problem instance is read-only input to both solvers —
in the state-passing embedding of a call, the instance coming out of
`ks_brute_force` and out of `ks_dfs` (any selector) is the instance passed
in, field by field. -/
theorem claim_C9 (ks : Knapsack) (bb : Option Nat) :
    (ks_brute_force_call ks).2 = ks ∧ (ks_dfs_call ks bb).2 = ks ∧
      (ks_brute_force_call ks).2.c = ks.c ∧
      (ks_brute_force_call ks).2.n = ks.n ∧
      (ks_brute_force_call ks).2.w = ks.w ∧
      (ks_brute_force_call ks).2.v = ks.v ∧
      (ks_dfs_call ks bb).2.c = ks.c ∧
      (ks_dfs_call ks bb).2.n = ks.n ∧
      (ks_dfs_call ks bb).2.w = ks.w ∧
      (ks_dfs_call ks bb).2.v = ks.v :=
  ⟨rfl, rfl, rfl, rfl, rfl, rfl, rfl, rfl, rfl, rfl⟩

/-- Claim C10: `powerset` destructively consumes its argument — the
argument list's final state is empty — while the returned list has
`2 ^ (original length)` entries and contains exactly the subsets of the
original elements (and `ks_brute_force` passes a freshly built
`list(range(n))` at each call, visible in its definition). -/
theorem claim_C10 (l : List Nat) :
    (powersetLoop l [∅]).2 = [] ∧
      (powerset l).length = 2 ^ l.length ∧
      ∀ s : Finset Nat, s ∈ powerset l ↔ ∀ x ∈ s, x ∈ l := by
  refine ⟨powersetLoop_snd l [∅], powerset_length l, fun s => ?_⟩
  exact ⟨fun hs => mem_powerset_sound hs, fun hs => mem_powerset_complete hs⟩

/-- Witness for C10: membership evaluated on a concrete list. -/
theorem claim_C10_witness :
    ({0} : Finset Nat) ∈ powerset [0, 1] :=
  ((claim_C10 [0, 1]).2.2 {0}).mpr (by decide)
